import Mathlib

/-!
Shallow embedding of `dashboard.py`, a single-file sales dashboard.

The program loads a spreadsheet into a table, coerces column types,
fills missing values, filters rows by date range / category / item set,
aggregates by group-by-sum, and renders charts plus a formatted table.

Modelling choices:
* A spreadsheet cell that went through `pd.to_datetime(..., errors="coerce")`
  is an `Option Int` (calendar dates are encoded as integers, `none` = NaT).
* A cell that went through `pd.to_numeric(..., errors="coerce")` is an
  `Option ℚ` (`none` = NaN from an unparsable value or a missing cell);
  floats are modelled by rationals.
* A text cell before `fillna` is an `Option String` (`none` = missing).
* `.astype(int)` on a float truncates toward zero: `Int.tdiv` on the
  rational's numerator/denominator.
* A pandas boolean mask and `df[mask]` are a `List Bool` and selection of
  the rows whose mask entry is `true`.
-/

/-- One raw spreadsheet row, after the per-column pandas coercions but
before `fillna`: each field holds the coercion result for that cell. -/
structure RawRow where
  tanggal : Option Int
  jumlah : Option ℚ
  totalPenjualan : Option ℚ
  kategori : Option String
  namaItem : Option String
deriving DecidableEq, Repr

/-- A loaded row of the dashboard's table: `Tanggal` may stay null (NaT),
`Jumlah` is an integer, `Total_Penjualan` a number, the two text columns
are strings. -/
structure Row where
  tanggal : Option Int
  jumlah : Int
  totalPenjualan : ℚ
  kategori : String
  namaItem : String
deriving DecidableEq, Repr

/-- Truncation of a rational toward zero, the effect of
`.astype(int)` on a float column. -/
def truncQ (q : ℚ) : Int :=
  Int.tdiv q.num (q.den : Int)

/-- The type-coercion and fillna stage of `load_data` on one row:
`Tanggal` keeps the coercion result; `Jumlah` is `fillna(0).astype(int)`;
`Total_Penjualan` is `fillna(0)`; `Kategori` and `Nama_Item` are
`fillna("Tidak diketahui")`. -/
def loadRow (r : RawRow) : Row where
  tanggal := r.tanggal
  jumlah := truncQ (r.jumlah.getD 0)
  totalPenjualan := r.totalPenjualan.getD 0
  kategori := r.kategori.getD "Tidak diketahui"
  namaItem := r.namaItem.getD "Tidak diketahui"

/-- The row-coercion part of `load_data` over the whole table
(each column is coerced independently, no row is dropped). -/
def load_data (rows : List RawRow) : List Row :=
  rows.map loadRow

/-- The invariant claimed for every loaded row: non-negative quantity,
non-negative amount, non-empty category and item name. -/
def rowInvariant (r : Row) : Prop :=
  0 ≤ r.jumlah ∧ 0 ≤ r.totalPenjualan ∧ r.kategori ≠ "" ∧ r.namaItem ≠ ""

instance (r : Row) : Decidable (rowInvariant r) := by
  unfold rowInvariant; infer_instance

/-- A raw row whose quantity cell parsed to the number `-1`. -/
def negQtyRaw : RawRow where
  tanggal := none
  jumlah := some (-1)
  totalPenjualan := some 5
  kategori := some "Coffee"
  namaItem := some "Latte"

theorem truncQ_zero : truncQ 0 = 0 := rfl

theorem truncQ_nonneg {q : ℚ} (h : 0 ≤ q) : 0 ≤ truncQ q :=
  Int.tdiv_nonneg (Rat.num_nonneg.mpr h) (Int.ofNat_nonneg q.den)

/-- C1 fails as stated: `load_data` never clamps negative numbers, so a raw
row whose quantity cell holds `-1` loads to a row with quantity `-1 < 0`. -/
theorem c1_counterexample :
    ¬ (∀ r ∈ load_data [negQtyRaw], rowInvariant r) := by
  intro h
  have := h (loadRow negQtyRaw) (by simp [load_data])
  have h2 := this.1
  revert h2
  decide

/-- C1 amended: after `load_data` every row's quantity is an integer and
its category and item name are (non-null) strings by construction; the
claimed non-negativity and non-emptiness hold provided every raw numeric
cell that parsed did so to a non-negative number and every raw text cell
that was present was non-empty (missing cells are coerced to `0`,
`0`, or the sentinel `"Tidak diketahui"`, which all satisfy it). -/
theorem c1_load_invariant (rows : List RawRow)
    (hq : ∀ r ∈ rows, ∀ q, r.jumlah = some q → 0 ≤ q)
    (ht : ∀ r ∈ rows, ∀ q, r.totalPenjualan = some q → 0 ≤ q)
    (hk : ∀ r ∈ rows, ∀ s, r.kategori = some s → s ≠ "")
    (hn : ∀ r ∈ rows, ∀ s, r.namaItem = some s → s ≠ "") :
    ∀ r ∈ load_data rows, rowInvariant r := by
  intro r hr
  rw [load_data, List.mem_map] at hr
  obtain ⟨a, ha, rfl⟩ := hr
  refine ⟨?_, ?_, ?_, ?_⟩
  · show 0 ≤ truncQ (a.jumlah.getD 0)
    cases hj : a.jumlah with
    | none => simp [hj, truncQ_zero]
    | some q => simpa [hj] using truncQ_nonneg (hq a ha q hj)
  · show 0 ≤ a.totalPenjualan.getD 0
    cases hj : a.totalPenjualan with
    | none => simp [hj]
    | some q => simpa [hj] using ht a ha q hj
  · show a.kategori.getD "Tidak diketahui" ≠ ""
    cases hj : a.kategori with
    | none => simp [hj]
    | some s => simpa [hj] using hk a ha s hj
  · show a.namaItem.getD "Tidak diketahui" ≠ ""
    cases hj : a.namaItem with
    | none => simp [hj]
    | some s => simpa [hj] using hn a ha s hj

/-- A well-formed raw row used to witness the amended C1. -/
def goodRaw : RawRow where
  tanggal := some 20240101
  jumlah := some 2
  totalPenjualan := some 50000
  kategori := some "Coffee"
  namaItem := some "Latte"

/-- Witness: the amended C1 applied to a concrete one-row table. -/
theorem c1_witness : rowInvariant (loadRow goodRaw) :=
  c1_load_invariant [goodRaw]
    (by intro r hr q hq; simp at hr; subst hr; simp [goodRaw] at hq; simp [← hq])
    (by intro r hr q hq; simp at hr; subst hr; simp [goodRaw] at hq; simp [← hq])
    (by intro r hr s hs; simp at hr; subst hr; simp [goodRaw] at hs; simp [← hs])
    (by intro r hr s hs; simp at hr; subst hr; simp [goodRaw] at hs; simp [← hs])
    (loadRow goodRaw) (by simp [load_data])

/-- The date part of the sidebar mask:
`(df["Tanggal"] >= start) & (df["Tanggal"] <= end)`.
In pandas a comparison against NaT is `False`, so a null date never
matches; both bounds are inclusive. -/
def dateMask (r : Row) (startDate endDate : Int) : Bool :=
  match r.tanggal with
  | none => false
  | some t => decide (startDate ≤ t) && decide (t ≤ endDate)

/-- One row's entry of the combined mask, following the code: the date
mask, then `mask &= (df["Kategori"] == selected_kat)` unless the category
is the `"Semua"` sentinel, then `mask &= df["Nama_Item"].isin(selected_items)`
guarded by `if selected_items:` — Python truthiness, so an empty list
skips the item predicate. -/
def maskFn (startDate endDate : Int) (selectedKat : String)
    (selectedItems : List String) (r : Row) : Bool :=
  let m := dateMask r startDate endDate
  let m := if selectedKat ≠ "Semua" then m && decide (r.kategori = selectedKat) else m
  let m := if ¬ selectedItems.isEmpty then m && decide (r.namaItem ∈ selectedItems) else m
  m

/-- Row selection by a boolean mask, the meaning of `df[mask]`:
keep exactly the rows whose mask entry is `true`, in order. -/
def boolSelect {α : Type} : List α → List Bool → List α
  | [], _ => []
  | _ :: _, [] => []
  | r :: rs, b :: bs => if b then r :: boolSelect rs bs else boolSelect rs bs

/-- `filtered = df[mask]` with the mask built row-wise over `df`. -/
def applyFilter (df : List Row) (startDate endDate : Int) (selectedKat : String)
    (selectedItems : List String) : List Row :=
  boolSelect df (df.map (maskFn startDate endDate selectedKat selectedItems))

/-- The same mask with the category and item conjuncts applied in the
opposite order, used to state commutativity of the predicates. -/
def maskFnItemsFirst (startDate endDate : Int) (selectedKat : String)
    (selectedItems : List String) (r : Row) : Bool :=
  let m := dateMask r startDate endDate
  let m := if ¬ selectedItems.isEmpty then m && decide (r.namaItem ∈ selectedItems) else m
  let m := if selectedKat ≠ "Semua" then m && decide (r.kategori = selectedKat) else m
  m

/-- `applyFilter` with the item predicate applied before the category
predicate. -/
def applyFilterItemsFirst (df : List Row) (startDate endDate : Int) (selectedKat : String)
    (selectedItems : List String) : List Row :=
  boolSelect df (df.map (maskFnItemsFirst startDate endDate selectedKat selectedItems))

lemma boolSelect_map_eq_filter {α : Type} (p : α → Bool) :
    ∀ l : List α, boolSelect l (l.map p) = l.filter p
  | [] => rfl
  | a :: l => by
    simp only [List.map_cons, boolSelect, List.filter_cons]
    cases p a <;> simp [boolSelect_map_eq_filter p l]

lemma bool_and_right_comm (a b c : Bool) : (a && b && c) = (a && c && b) := by
  cases a <;> cases b <;> cases c <;> rfl

/-- C9: the filter step returns exactly the rows matching the combined
mask, as a new table in the original row order (a sublist of the input);
the input table itself is untouched (`df[mask]` builds a fresh frame). -/
theorem c9_filter_exact (df : List Row) (startDate endDate : Int)
    (selectedKat : String) (selectedItems : List String) :
    applyFilter df startDate endDate selectedKat selectedItems
        = df.filter (maskFn startDate endDate selectedKat selectedItems)
    ∧ (applyFilter df startDate endDate selectedKat selectedItems).Sublist df
    ∧ ∀ r, r ∈ applyFilter df startDate endDate selectedKat selectedItems
        ↔ r ∈ df ∧ maskFn startDate endDate selectedKat selectedItems r = true := by
  have h := boolSelect_map_eq_filter
    (maskFn startDate endDate selectedKat selectedItems) df
  refine ⟨h, ?_, ?_⟩
  · rw [applyFilter, h]; exact List.filter_sublist df
  · intro r
    rw [applyFilter, h]
    exact List.mem_filter

/-- C3 fails as stated: with an explicitly empty item set the code's
`if selected_items:` guard skips the item predicate, so a matching row is
still selected instead of zero rows. -/
theorem c3_counterexample :
    ¬ (applyFilter [⟨some 0, 1, 5, "Coffee", "Latte"⟩] 0 0 "Semua" [] = []) := by
  decide

lemma applyFilter_empty_items (df : List Row) (startDate endDate : Int)
    (selectedKat : String) :
    applyFilter df startDate endDate selectedKat [] =
      df.filter (fun r => dateMask r startDate endDate
        && (decide (selectedKat = "Semua") || decide (r.kategori = selectedKat))) := by
  rw [applyFilter, boolSelect_map_eq_filter]
  apply List.filter_congr
  intro r _
  by_cases hk : selectedKat = "Semua" <;>
    simp [maskFn, hk]

/-- C3 amended: an explicitly empty item set is treated as "no item
filtering" (the empty list is falsy, so `mask &= ... isin ...` is never
applied); the filter then selects exactly the rows matching the date and
category predicates. -/
theorem c3_empty_items_no_filtering (df : List Row) (startDate endDate : Int)
    (selectedKat : String) :
    applyFilter df startDate endDate selectedKat [] =
      df.filter (fun r => dateMask r startDate endDate
        && (decide (selectedKat = "Semua") || decide (r.kategori = selectedKat))) :=
  applyFilter_empty_items df startDate endDate selectedKat

/-- `df["Tanggal"].min()`: the least non-null date, skipping nulls as
pandas does; `none` when every date is null. -/
def minDateOf (df : List Row) : Option Int :=
  match df.filterMap (·.tanggal) with
  | [] => none
  | d :: ds => some (ds.foldl min d)

/-- `df["Tanggal"].max()`: the greatest non-null date, skipping nulls. -/
def maxDateOf (df : List Row) : Option Int :=
  match df.filterMap (·.tanggal) with
  | [] => none
  | d :: ds => some (ds.foldl max d)

lemma foldl_min_le (l : List Int) : ∀ a : Int,
    l.foldl min a ≤ a ∧ ∀ x ∈ l, l.foldl min a ≤ x := by
  induction l with
  | nil => intro a; exact ⟨le_refl a, by simp⟩
  | cons b l ih =>
    intro a
    have h := ih (min a b)
    refine ⟨le_trans h.1 (min_le_left a b), ?_⟩
    intro x hx
    rcases List.mem_cons.mp hx with rfl | hx
    · exact le_trans h.1 (min_le_right a x)
    · exact h.2 x hx

lemma foldl_max_ge (l : List Int) : ∀ a : Int,
    a ≤ l.foldl max a ∧ ∀ x ∈ l, x ≤ l.foldl max a := by
  induction l with
  | nil => intro a; exact ⟨le_refl a, by simp⟩
  | cons b l ih =>
    intro a
    have h := ih (max a b)
    refine ⟨le_trans (le_max_left a b) h.1, ?_⟩
    intro x hx
    rcases List.mem_cons.mp hx with rfl | hx
    · exact le_trans (le_max_right a x) h.1
    · exact h.2 x hx

lemma minDateOf_le {df : List Row} {lo : Int} (h : minDateOf df = some lo) :
    ∀ r ∈ df, ∀ t : Int, r.tanggal = some t → lo ≤ t := by
  intro r hr t ht
  have hmem : t ∈ df.filterMap (·.tanggal) :=
    List.mem_filterMap.mpr ⟨r, hr, ht⟩
  rw [minDateOf] at h
  revert h hmem
  cases hfm : df.filterMap (·.tanggal) with
  | nil => intro h; cases h
  | cons d ds =>
    intro h hmem
    have hlo : lo = ds.foldl min d := by
      injection h with h2; exact h2.symm
    subst hlo
    rcases List.mem_cons.mp hmem with rfl | hmem
    · exact (foldl_min_le ds t).1
    · exact (foldl_min_le ds d).2 t hmem

lemma maxDateOf_ge {df : List Row} {hi : Int} (h : maxDateOf df = some hi) :
    ∀ r ∈ df, ∀ t : Int, r.tanggal = some t → t ≤ hi := by
  intro r hr t ht
  have hmem : t ∈ df.filterMap (·.tanggal) :=
    List.mem_filterMap.mpr ⟨r, hr, ht⟩
  rw [maxDateOf] at h
  revert h hmem
  cases hfm : df.filterMap (·.tanggal) with
  | nil => intro h; cases h
  | cons d ds =>
    intro h hmem
    have hhi : hi = ds.foldl max d := by
      injection h with h2; exact h2.symm
    subst hhi
    rcases List.mem_cons.mp hmem with rfl | hmem
    · exact (foldl_max_ge ds t).1
    · exact (foldl_max_ge ds d).2 t hmem

/-- C4: a row passes the date predicate iff its date is non-null and lies
within the inclusive bounds; and filtering over the full range
`(min_date, max_date)` of the table (with the category and item
predicates inactive) returns exactly the rows with a non-null date. -/
theorem c4_date_predicate (r : Row) (startDate endDate lo hi : Int) (df : List Row)
    (hlo : minDateOf df = some lo) (hhi : maxDateOf df = some hi) :
    (dateMask r startDate endDate = true
      ↔ ∃ t : Int, r.tanggal = some t ∧ startDate ≤ t ∧ t ≤ endDate)
    ∧ applyFilter df lo hi "Semua" [] = df.filter (fun x => x.tanggal.isSome) := by
  constructor
  · cases ht : r.tanggal with
    | none => simp [dateMask, ht]
    | some t => simp [dateMask, ht]
  · rw [applyFilter_empty_items]
    apply List.filter_congr
    intro x hx
    cases ht : x.tanggal with
    | none => simp [dateMask, ht]
    | some t =>
      have h1 := minDateOf_le hlo x hx t ht
      have h2 := maxDateOf_ge hhi x hx t ht
      simp [dateMask, ht, h1, h2]

/-- Witness: C4 applied to a concrete one-row table whose date is `3`. -/
theorem c4_witness :
    minDateOf [⟨some 3, 1, 5, "Coffee", "Latte"⟩] = some 3
    ∧ maxDateOf [⟨some 3, 1, 5, "Coffee", "Latte"⟩] = some 3
    ∧ ((dateMask ⟨some 3, 1, 5, "Coffee", "Latte"⟩ 3 3 = true
        ↔ ∃ t : Int, Row.tanggal ⟨some 3, 1, 5, "Coffee", "Latte"⟩ = some t ∧ 3 ≤ t ∧ t ≤ 3)
      ∧ applyFilter [⟨some 3, 1, 5, "Coffee", "Latte"⟩] 3 3 "Semua" []
          = List.filter (fun x => x.tanggal.isSome) [⟨some 3, 1, 5, "Coffee", "Latte"⟩]) :=
  ⟨by decide, by decide,
    c4_date_predicate ⟨some 3, 1, 5, "Coffee", "Latte"⟩ 3 3 3 3
      [⟨some 3, 1, 5, "Coffee", "Latte"⟩] (by decide) (by decide)⟩

/-- C7: the category predicate and the item predicate commute — applying
them in either order yields the same filtered table, because both are
conjuncts of one boolean mask. -/
theorem c7_filter_commutes (df : List Row) (startDate endDate : Int)
    (selectedKat : String) (selectedItems : List String) :
    applyFilterItemsFirst df startDate endDate selectedKat selectedItems
      = applyFilter df startDate endDate selectedKat selectedItems := by
  have hmask : maskFnItemsFirst startDate endDate selectedKat selectedItems
      = maskFn startDate endDate selectedKat selectedItems := by
    funext r
    by_cases hk : selectedKat = "Semua" <;>
      by_cases hi : selectedItems.isEmpty <;>
        simp [maskFn, maskFnItemsFirst, hk, hi, bool_and_right_comm]
  rw [applyFilterItemsFirst, applyFilter, hmask]

/-- Running group sums as an association list: add `v` into the entry for
key `k`, appending a new entry when the key is not yet present. -/
def upsert {κ : Type} [DecidableEq κ] : List (κ × ℚ) → κ → ℚ → List (κ × ℚ)
  | [], k, v => [(k, v)]
  | (k', v') :: rest, k, v =>
    if k' = k then (k', v' + v) :: rest else (k', v') :: upsert rest k v

/-- Lookup of a key's running sum. -/
def lookupKey {κ : Type} [DecidableEq κ] : List (κ × ℚ) → κ → Option ℚ
  | [], _ => none
  | (k', v) :: rest, k => if k' = k then some v else lookupKey rest k

/-- Ordered insertion of one `(key, sum)` pair, by key. -/
def insertLe {κ : Type} (le : κ → κ → Bool) (p : κ × ℚ) : List (κ × ℚ) → List (κ × ℚ)
  | [] => [p]
  | q :: rest => if le p.1 q.1 then p :: q :: rest else q :: insertLe le p rest

/-- Insertion sort of `(key, sum)` pairs by key; pandas `groupby` returns
its groups with sorted keys. -/
def sortByKey {κ : Type} (le : κ → κ → Bool) : List (κ × ℚ) → List (κ × ℚ)
  | [] => []
  | p :: rest => insertLe le p (sortByKey le rest)

/-- `df.groupby(key)[measure].sum().reset_index()`: one `(key, sum)` row
per distinct key, keys sorted. -/
def groupbySum {κ : Type} [DecidableEq κ] (le : κ → κ → Bool)
    (df : List Row) (key : Row → κ) (measure : Row → ℚ) : List (κ × ℚ) :=
  sortByKey le (df.foldl (fun acc r => upsert acc (key r) (measure r)) [])

/-- The specified sum of the measure over the rows of one group. -/
def sumKey {κ : Type} [DecidableEq κ] (df : List Row) (key : Row → κ)
    (measure : Row → ℚ) (k : κ) : ℚ :=
  ((df.filter (fun r => decide (key r = k))).map measure).sum

/-- Byte-wise lexicographic order on strings, used as the sort order of
the string group keys. -/
def charListLe : List Char → List Char → Bool
  | [], _ => true
  | _ :: _, [] => false
  | a :: as, b :: bs =>
    if a.toNat < b.toNat then true
    else if b.toNat < a.toNat then false
    else charListLe as bs

/-- Lexicographic order on strings via their character lists. -/
def strLe (a b : String) : Bool := charListLe a.data b.data

lemma lookupKey_upsert_self {κ : Type} [DecidableEq κ] :
    ∀ (acc : List (κ × ℚ)) (k : κ) (v : ℚ),
      lookupKey (upsert acc k v) k = some ((lookupKey acc k).getD 0 + v)
  | [], k, v => by simp [upsert, lookupKey]
  | (k', v') :: rest, k, v => by
    by_cases h : k' = k
    · subst h; simp [upsert, lookupKey]
    · simp [upsert, lookupKey, h, lookupKey_upsert_self rest k v]

lemma lookupKey_upsert_ne {κ : Type} [DecidableEq κ] {k k0 : κ} (hne : k ≠ k0) :
    ∀ (acc : List (κ × ℚ)) (v : ℚ),
      lookupKey (upsert acc k0 v) k = lookupKey acc k
  | [], v => by simp [upsert, lookupKey, Ne.symm hne]
  | (k', v') :: rest, v => by
    show lookupKey
      (if k' = k0 then (k', v' + v) :: rest else (k', v') :: upsert rest k0 v) k = _
    by_cases h : k' = k0
    · rw [if_pos h]
      have hk : ¬ k' = k := by rw [h]; exact fun hx => hne hx.symm
      show (if k' = k then some (v' + v) else lookupKey rest k) = _
      rw [if_neg hk]
      show _ = (if k' = k then some v' else lookupKey rest k)
      rw [if_neg hk]
    · rw [if_neg h]
      show (if k' = k then some v' else lookupKey (upsert rest k0 v) k)
        = (if k' = k then some v' else lookupKey rest k)
      rw [lookupKey_upsert_ne hne rest v]

lemma lookupKey_eq_none {κ : Type} [DecidableEq κ] :
    ∀ (l : List (κ × ℚ)) (k : κ), lookupKey l k = none ↔ k ∉ l.map Prod.fst
  | [], k => by simp [lookupKey]
  | (k', v') :: rest, k => by
    by_cases h : k' = k
    · subst h; simp [lookupKey]
    · have h' : ¬ k = k' := fun hx => h hx.symm
      show (if k' = k then some v' else lookupKey rest k) = none ↔ _
      rw [if_neg h, lookupKey_eq_none rest k]
      simp [h']

lemma upsert_keys {κ : Type} [DecidableEq κ] :
    ∀ (acc : List (κ × ℚ)) (k : κ) (v : ℚ),
      (upsert acc k v).map Prod.fst =
        if k ∈ acc.map Prod.fst then acc.map Prod.fst else acc.map Prod.fst ++ [k]
  | [], k, v => by simp [upsert]
  | (k', v') :: rest, k, v => by
    by_cases h : k' = k
    · subst h; simp [upsert]
    · have h' : ¬ k = k' := fun hx => h hx.symm
      by_cases hm : k ∈ rest.map Prod.fst <;>
        simp [upsert, h, h', hm, upsert_keys rest k v]

lemma upsert_keys_nodup {κ : Type} [DecidableEq κ]
    (acc : List (κ × ℚ)) (k : κ) (v : ℚ) (h : (acc.map Prod.fst).Nodup) :
    ((upsert acc k v).map Prod.fst).Nodup := by
  rw [upsert_keys]
  by_cases hm : k ∈ acc.map Prod.fst
  · simpa [hm] using h
  · rw [if_neg hm]
    exact List.Nodup.append h (List.nodup_singleton k) (by simpa using hm)

lemma sumKey_append_singleton {κ : Type} [DecidableEq κ]
    (p : List Row) (r : Row) (key : Row → κ) (measure : Row → ℚ) (k : κ) :
    sumKey (p ++ [r]) key measure k =
      sumKey p key measure k + (if key r = k then measure r else 0) := by
  unfold sumKey
  rw [List.filter_append, List.map_append, List.sum_append]
  by_cases h : key r = k <;> simp [h]

lemma sumKey_of_not_mem {κ : Type} [DecidableEq κ]
    {p : List Row} {key : Row → κ} {k : κ} (h : k ∉ p.map key) (measure : Row → ℚ) :
    sumKey p key measure k = 0 := by
  unfold sumKey
  have : p.filter (fun r => decide (key r = k)) = [] := by
    rw [List.filter_eq_nil_iff]
    intro a ha
    simp only [decide_eq_true_eq]
    intro hx
    exact h (List.mem_map.mpr ⟨a, ha, hx⟩)
  simp [this]

lemma fold_lookup {κ : Type} [DecidableEq κ] (key : Row → κ) (measure : Row → ℚ) :
    ∀ (rows p : List Row) (acc : List (κ × ℚ)),
      (∀ k, lookupKey acc k =
        if k ∈ p.map key then some (sumKey p key measure k) else none) →
      ∀ k, lookupKey
          (rows.foldl (fun acc r => upsert acc (key r) (measure r)) acc) k =
        if k ∈ (p ++ rows).map key then some (sumKey (p ++ rows) key measure k)
        else none := by
  intro rows
  induction rows with
  | nil => intro p acc h k; simpa using h k
  | cons r rows ih =>
    intro p acc h k
    rw [List.foldl_cons]
    have hstep : ∀ k', lookupKey (upsert acc (key r) (measure r)) k' =
        if k' ∈ (p ++ [r]).map key then some (sumKey (p ++ [r]) key measure k')
        else none := by
      intro k'
      by_cases hk : k' = key r
      · subst hk
        rw [lookupKey_upsert_self, h]
        by_cases hm : key r ∈ p.map key
        · have hm2 : key r ∈ (p ++ [r]).map key := by
            rw [List.map_append]
            exact List.mem_append.mpr (Or.inl hm)
          rw [if_pos hm, if_pos hm2, sumKey_append_singleton]
          simp
        · have hm2 : key r ∈ (p ++ [r]).map key := by
            rw [List.map_append]
            exact List.mem_append.mpr (Or.inr (by simp))
          rw [if_neg hm, if_pos hm2, sumKey_append_singleton,
            sumKey_of_not_mem hm measure]
          simp
      · rw [lookupKey_upsert_ne hk, h]
        by_cases hm : k' ∈ p.map key
        · have hm2 : k' ∈ (p ++ [r]).map key := by
            rw [List.map_append]
            exact List.mem_append.mpr (Or.inl hm)
          rw [if_pos hm, if_pos hm2, sumKey_append_singleton]
          have hne : ¬ key r = k' := fun hx => hk hx.symm
          simp [hne]
        · have hm2 : k' ∉ (p ++ [r]).map key := by
            rw [List.map_append]
            intro hx
            rcases List.mem_append.mp hx with hx | hx
            · exact hm hx
            · simp only [List.map_cons, List.map_nil, List.mem_singleton] at hx
              exact hk hx
          rw [if_neg hm, if_neg hm2]
    have := ih (p ++ [r]) (upsert acc (key r) (measure r)) hstep k
    simpa [List.append_assoc] using this

lemma fold_keys_nodup {κ : Type} [DecidableEq κ] (key : Row → κ) (measure : Row → ℚ) :
    ∀ (rows : List Row) (acc : List (κ × ℚ)), (acc.map Prod.fst).Nodup →
      (((rows.foldl (fun acc r => upsert acc (key r) (measure r)) acc)).map
        Prod.fst).Nodup := by
  intro rows
  induction rows with
  | nil => intro acc h; simpa using h
  | cons r rows ih =>
    intro acc h
    rw [List.foldl_cons]
    exact ih _ (upsert_keys_nodup acc (key r) (measure r) h)

lemma lookupKey_of_mem_nodup {κ : Type} [DecidableEq κ] :
    ∀ {l : List (κ × ℚ)} {k : κ} {v : ℚ},
      (l.map Prod.fst).Nodup → (k, v) ∈ l → lookupKey l k = some v := by
  intro l
  induction l with
  | nil => intro k v _ hm; cases hm
  | cons q rest ih =>
    intro k v hnd hm
    obtain ⟨k', v'⟩ := q
    have hnd' := hnd
    rw [List.map_cons] at hnd'
    have hcons := List.nodup_cons.mp hnd'
    rcases List.mem_cons.mp hm with heq | hm'
    · have h1 : k = k' := congrArg Prod.fst heq
      have h2 : v = v' := congrArg Prod.snd heq
      subst h1; subst h2
      simp [lookupKey]
    · have hk' : ¬ k' = k := by
        intro hx
        subst hx
        exact hcons.1 (List.mem_map.mpr ⟨(k', v), hm', rfl⟩)
      show (if k' = k then some v' else lookupKey rest k) = some v
      rw [if_neg hk']
      exact ih hcons.2 hm'

lemma insertLe_perm {κ : Type} (le : κ → κ → Bool) (p : κ × ℚ) :
    ∀ l : List (κ × ℚ), (insertLe le p l).Perm (p :: l)
  | [] => List.Perm.refl _
  | q :: rest => by
    show (if le p.1 q.1 then p :: q :: rest else q :: insertLe le p rest).Perm _
    by_cases h : le p.1 q.1 = true
    · rw [if_pos h]
    · rw [if_neg h]
      exact ((insertLe_perm le p rest).cons q).trans (List.Perm.swap p q rest)

lemma sortByKey_perm {κ : Type} (le : κ → κ → Bool) :
    ∀ l : List (κ × ℚ), (sortByKey le l).Perm l
  | [] => List.Perm.refl _
  | p :: rest =>
    (insertLe_perm le p (sortByKey le rest)).trans
      ((sortByKey_perm le rest).cons p)

/-- The two-row table of the spec's aggregation example. -/
def exampleDf : List Row :=
  [⟨some 20240101, 2, 50000, "Coffee", "Latte"⟩,
   ⟨some 20240101, 1, 25000, "Food", "Croissant"⟩]

/-- C8: group-by-sum yields exactly one `(key, sum)` row per distinct key
of the table, each sum being the total of the measure over that key's
rows; on the spec's example it yields Coffee ↦ 50000, Food ↦ 25000. -/
theorem c8_groupby_sum {κ : Type} [DecidableEq κ] (le : κ → κ → Bool)
    (df : List Row) (key : Row → κ) (measure : Row → ℚ) :
    ((groupbySum le df key measure).map Prod.fst).Nodup
    ∧ (∀ k : κ, k ∈ (groupbySum le df key measure).map Prod.fst ↔ k ∈ df.map key)
    ∧ (∀ p ∈ groupbySum le df key measure, p.2 = sumKey df key measure p.1)
    ∧ groupbySum strLe exampleDf (·.kategori) (·.totalPenjualan)
        = [("Coffee", 50000), ("Food", 25000)] := by
  have hperm := sortByKey_perm le
    (df.foldl (fun acc r => upsert acc (key r) (measure r)) [])
  have hnd := fold_keys_nodup key measure df [] (by simp)
  have hkeysperm := hperm.map Prod.fst
  have hlook : ∀ k, lookupKey
      (df.foldl (fun acc r => upsert acc (key r) (measure r)) []) k =
      if k ∈ df.map key then some (sumKey df key measure k) else none := by
    have h0 := fold_lookup key measure df [] []
      (by intro k; simp [lookupKey])
    intro k
    simpa using h0 k
  refine ⟨?_, ?_, ?_, ?_⟩
  · simp only [groupbySum]
    exact hkeysperm.nodup_iff.mpr hnd
  · intro k
    simp only [groupbySum]
    rw [hkeysperm.mem_iff]
    constructor
    · intro hm
      by_contra hdf
      have h0 := hlook k
      rw [if_neg hdf] at h0
      exact (lookupKey_eq_none _ k).mp h0 hm
    · intro hdf
      by_contra hm
      have h0 := hlook k
      rw [if_pos hdf, (lookupKey_eq_none _ k).mpr hm] at h0
      cases h0
  · intro p hp
    simp only [groupbySum] at hp
    have hmem : p ∈ df.foldl (fun acc r => upsert acc (key r) (measure r)) [] :=
      hperm.mem_iff.mp hp
    have hl := lookupKey_of_mem_nodup hnd
      (show (p.1, p.2) ∈ _ by simpa using hmem)
    have h0 := hlook p.1
    by_cases hmemk : p.1 ∈ df.map key
    · rw [hl, if_pos hmemk] at h0
      injection h0
    · rw [hl, if_neg hmemk] at h0
      cases h0
  · decide

/-- Witness: C8's per-group sum applied at the example's Coffee group. -/
theorem c8_witness :
    (("Coffee", (50000:ℚ)).2
      = sumKey exampleDf (·.kategori) (·.totalPenjualan) ("Coffee", (50000:ℚ)).1) := by
  have h := c8_groupby_sum strLe exampleDf (·.kategori) (·.totalPenjualan)
  apply h.2.2.1 ("Coffee", (50000:ℚ))
  rw [h.2.2.2]
  simp

/-- `str.strip()` on a column name: drop leading and trailing whitespace. -/
def stripName (s : String) : String :=
  String.mk (((s.data.dropWhile Char.isWhitespace).reverse.dropWhile
    Char.isWhitespace).reverse)

/-- `str.lower()` on a column name. -/
def lowerName (s : String) : String := String.mk (s.data.map Char.toLower)

/-- The expected canonical column names of `load_data`, in loop order. -/
def expectedCols : List String :=
  ["Tanggal", "Kategori", "Nama_Item", "Jumlah", "Total_Penjualan"]

/-- The column names of a raw dataframe, modelled as a list of
`(name, column data)` pairs. -/
def colsOf {α : Type} (t : List (String × α)) : List String := t.map Prod.fst

/-- `{c.lower(): c for c in df.columns}` looked up at `key`: a Python dict
comprehension keeps the last column whose lowercasing is `key`. -/
def lowerLookup (cols : List String) (key : String) : Option String :=
  cols.reverse.find? (fun c => decide (lowerName c = key))

/-- `df.rename(columns={old: target})`: every column named `old` is
renamed to `target`; the data is untouched. -/
def renameCol {α : Type} (t : List (String × α)) (old target : String) :
    List (String × α) :=
  t.map (fun p => if p.1 = old then (target, p.2) else p)

/-- One iteration of the resolution loop for expected column `col`:
if `col` is absent from the current columns and the (stale) lowercase map
of the original columns has a case-insensitive match, rename it. -/
def resolveStep {α : Type} (orig : List String) (t : List (String × α))
    (col : String) : List (String × α) :=
  if col ∈ colsOf t then t
  else
    match lowerLookup orig (lowerName col) with
    | some old => renameCol t old col
    | none => t

/-- The column-normalization stage of `load_data`: strip all names, build
the lowercase map once, then run the resolution loop over the expected
columns. -/
def resolveColumns {α : Type} (t : List (String × α)) : List (String × α) :=
  let t0 := t.map (fun p => (stripName p.1, p.2))
  expectedCols.foldl (resolveStep (colsOf t0)) t0

/-- `df[name]`: the data of the first column called `name`. -/
def getCol {α : Type} (t : List (String × α)) (name : String) : Option α :=
  (t.find? (fun p => decide (p.1 = name))).map Prod.snd

lemma colsOf_renameCol {α : Type} :
    ∀ (t : List (String × α)) (old target : String),
      colsOf (renameCol t old target)
        = (colsOf t).map (fun n => if n = old then target else n)
  | [], _, _ => rfl
  | p :: t, old, target => by
    show (if p.1 = old then (target, p.2) else p).1
        :: colsOf (renameCol t old target)
      = (if p.1 = old then target else p.1)
        :: (colsOf t).map (fun n => if n = old then target else n)
    rw [colsOf_renameCol t old target]
    by_cases h : p.1 = old
    · rw [if_pos h, if_pos h]
    · rw [if_neg h, if_neg h]

lemma lowerLookup_spec {cols : List String} {key old : String}
    (h : lowerLookup cols key = some old) :
    lowerName old = key ∧ old ∈ cols := by
  unfold lowerLookup at h
  refine ⟨?_, ?_⟩
  · have := List.find?_some h
    simpa using this
  · have := List.mem_of_find?_eq_some h
    simpa using this

lemma resolveStep_mem {α : Type} (orig : List String) (t : List (String × α))
    (c col : String) (hcol : col ∈ colsOf t)
    (hne : lowerName col ≠ lowerName c) :
    col ∈ colsOf (resolveStep orig t c) := by
  unfold resolveStep
  by_cases h : c ∈ colsOf t
  · rw [if_pos h]; exact hcol
  · rw [if_neg h]
    cases hl : lowerLookup orig (lowerName c) with
    | none => exact hcol
    | some old =>
      have hspec := lowerLookup_spec hl
      have hcne : col ≠ old := by
        intro hx
        exact hne (hx ▸ hspec.1)
      rw [colsOf_renameCol]
      exact List.mem_map.mpr ⟨col, hcol, by rw [if_neg hcne]⟩

lemma resolveStep_establishes {α : Type} (orig : List String)
    (t : List (String × α)) (col : String)
    (hsurv : ∀ x ∈ orig, lowerName x = lowerName col → x ∈ colsOf t)
    (hex : ∃ x ∈ orig, lowerName x = lowerName col) :
    col ∈ colsOf (resolveStep orig t col) := by
  unfold resolveStep
  by_cases h : col ∈ colsOf t
  · rw [if_pos h]; exact h
  · rw [if_neg h]
    cases hl : lowerLookup orig (lowerName col) with
    | none =>
      exfalso
      obtain ⟨x, hx, hlx⟩ := hex
      unfold lowerLookup at hl
      rw [List.find?_eq_none] at hl
      exact hl x (List.mem_reverse.mpr hx) (by simpa using hlx)
    | some old =>
      have hspec := lowerLookup_spec hl
      have hold : old ∈ colsOf t := hsurv old hspec.2 hspec.1
      rw [colsOf_renameCol]
      exact List.mem_map.mpr ⟨old, hold, by rw [if_pos rfl]⟩

lemma fold_preserves {α : Type} (orig : List String) :
    ∀ (exp : List String) (t : List (String × α)) (col : String),
      col ∈ colsOf t → (∀ c ∈ exp, lowerName col ≠ lowerName c) →
      col ∈ colsOf (exp.foldl (resolveStep orig) t) := by
  intro exp
  induction exp with
  | nil => intro t col h _; exact h
  | cons c exp ih =>
    intro t col h hne
    rw [List.foldl_cons]
    exact ih (resolveStep orig t c) col
      (resolveStep_mem orig t c col h (hne c (List.mem_cons_self c exp)))
      (fun c' hc' => hne c' (List.mem_cons_of_mem c hc'))

lemma fold_establishes {α : Type} (orig : List String) :
    ∀ (exp : List String) (t : List (String × α)) (col : String),
      col ∈ exp → exp.Nodup →
      (∀ c ∈ exp, ∀ c' ∈ exp, c ≠ c' → lowerName c ≠ lowerName c') →
      (∀ x ∈ orig, lowerName x = lowerName col → x ∈ colsOf t) →
      (∃ x ∈ orig, lowerName x = lowerName col) →
      col ∈ colsOf (exp.foldl (resolveStep orig) t) := by
  intro exp
  induction exp with
  | nil => intro t col h; cases h
  | cons c exp ih =>
    intro t col hmem hnd hpw hsurv hex
    have hndc := List.nodup_cons.mp hnd
    rw [List.foldl_cons]
    rcases List.mem_cons.mp hmem with rfl | hmem'
    · exact fold_preserves orig exp (resolveStep orig t col) col
        (resolveStep_establishes orig t col hsurv hex)
        (fun c' hc' => hpw col (List.mem_cons_self col exp) c'
          (List.mem_cons_of_mem col hc')
          (fun hx => hndc.1 (hx ▸ hc')))
    · have hcne : col ≠ c := fun hx => hndc.1 (hx ▸ hmem')
      have hlne : lowerName col ≠ lowerName c :=
        hpw col (List.mem_cons_of_mem c hmem') c (List.mem_cons_self c exp) hcne
      refine ih (resolveStep orig t c) col hmem' hndc.2 ?_ ?_ hex
      · intro a ha a' ha' hne
        exact hpw a (List.mem_cons_of_mem c ha) a' (List.mem_cons_of_mem c ha') hne
      · intro x hx hlx
        exact resolveStep_mem orig t c x (hsurv x hx hlx) (hlx ▸ hlne)

lemma expectedCols_nodup : expectedCols.Nodup := by decide

lemma expectedCols_lower_distinct :
    ∀ c ∈ expectedCols, ∀ c' ∈ expectedCols, c ≠ c' → lowerName c ≠ lowerName c' := by
  decide

set_option maxHeartbeats 4000000 in
lemma resolveColumns_tanggal_lower {α : Type} (dT dK dN dJ dP : α) :
    resolveColumns [("tanggal", dT), ("Kategori", dK), ("Nama_Item", dN),
        ("Jumlah", dJ), ("Total_Penjualan", dP)]
      = [("Tanggal", dT), ("Kategori", dK), ("Nama_Item", dN),
        ("Jumlah", dJ), ("Total_Penjualan", dP)] := by
  rfl

set_option maxHeartbeats 4000000 in
lemma resolveColumns_tanggal_canonical {α : Type} (dT dK dN dJ dP : α) :
    resolveColumns [("Tanggal", dT), ("Kategori", dK), ("Nama_Item", dN),
        ("Jumlah", dJ), ("Total_Penjualan", dP)]
      = [("Tanggal", dT), ("Kategori", dK), ("Nama_Item", dN),
        ("Jumlah", dJ), ("Total_Penjualan", dP)] := by
  rfl

lemma resolveColumns_eq_foldl {α : Type} (t : List (String × α)) :
    resolveColumns t = expectedCols.foldl
      (resolveStep (colsOf (t.map (fun p => (stripName p.1, p.2)))))
      (t.map (fun p => (stripName p.1, p.2))) := rfl

/-- C5: whenever some column of the (stripped) input lowercases to an
expected canonical name, that canonical name is a column of the resolved
table; and a file whose date column is named `"tanggal"` resolves to the
same table — with the canonical `"Tanggal"` column populated by the same
data — as the file with canonical casing. -/
theorem c5_column_resolution {α : Type} (t : List (String × α)) (col : String)
    (hexp : col ∈ expectedCols)
    (hmatch : ∃ x ∈ colsOf (t.map (fun p => (stripName p.1, p.2))),
      lowerName x = lowerName col) :
    col ∈ colsOf (resolveColumns t)
    ∧ ∀ dT dK dN dJ dP : α,
        resolveColumns [("tanggal", dT), ("Kategori", dK), ("Nama_Item", dN),
            ("Jumlah", dJ), ("Total_Penjualan", dP)]
          = [("Tanggal", dT), ("Kategori", dK), ("Nama_Item", dN),
            ("Jumlah", dJ), ("Total_Penjualan", dP)]
        ∧ resolveColumns [("Tanggal", dT), ("Kategori", dK), ("Nama_Item", dN),
            ("Jumlah", dJ), ("Total_Penjualan", dP)]
          = [("Tanggal", dT), ("Kategori", dK), ("Nama_Item", dN),
            ("Jumlah", dJ), ("Total_Penjualan", dP)] := by
  constructor
  · rw [resolveColumns_eq_foldl]
    exact fold_establishes _ _ _ _ hexp
      expectedCols_nodup expectedCols_lower_distinct (fun x hx _ => hx) hmatch
  · intro dT dK dN dJ dP
    exact ⟨resolveColumns_tanggal_lower dT dK dN dJ dP,
      resolveColumns_tanggal_canonical dT dK dN dJ dP⟩

/-- Witness: C5 applied to a one-column table named `"tanggal"`. -/
theorem c5_witness :
    ("Tanggal" ∈ expectedCols
      ∧ ∃ x ∈ colsOf (([("tanggal", (0:Nat))]).map (fun p => (stripName p.1, p.2))),
          lowerName x = lowerName "Tanggal")
    ∧ "Tanggal" ∈ colsOf (resolveColumns [("tanggal", (0:Nat))]) :=
  ⟨⟨by decide, by decide⟩,
    (c5_column_resolution [("tanggal", (0:Nat))] "Tanggal" (by decide) (by decide)).1⟩

/-- The outputs handed to the presentation layer after one recomputation
pass: the filtered table and the group-by-sum summaries behind the bar
and pie charts. -/
structure Dashboard where
  filtered : List Row
  barData : List (String × ℚ)
  pieData : List (String × ℚ)
deriving Repr

/-- One session run: `try: df = load_data() except ...` followed by the
filter and the aggregations. The argument models the outcome of reading
the file: `Except.error` when `pd.read_excel` raised. -/
def runSession (file : Except String (List RawRow)) (startDate endDate : Int)
    (selectedKat : String) (selectedItems : List String) :
    Except String Dashboard :=
  match file with
  | .error e => .error e
  | .ok raws =>
    let df := load_data raws
    let filtered := applyFilter df startDate endDate selectedKat selectedItems
    .ok { filtered := filtered
        , barData := groupbySum strLe filtered (·.kategori) (·.totalPenjualan)
        , pieData := groupbySum strLe filtered (·.namaItem) (·.totalPenjualan) }

/-- C6: when the file cannot be read, the session surfaces exactly the
read error (`st.error` then `st.stop()`): no dashboard output of any kind
is produced, so no further processing occurs. -/
theorem c6_load_error_fatal (msg : String) (startDate endDate : Int)
    (selectedKat : String) (selectedItems : List String) :
    runSession (Except.error msg) startDate endDate selectedKat selectedItems
        = Except.error msg
    ∧ ∀ d : Dashboard,
        runSession (Except.error msg) startDate endDate selectedKat selectedItems
          ≠ Except.ok d := by
  refine ⟨rfl, ?_⟩
  intro d h
  cases h

/-- A dynamically typed cell of the display table: the amount column
holds numbers before formatting and strings afterwards. -/
inductive Cell where
  | num (q : ℚ)
  | txt (s : String)
deriving DecidableEq, Repr

/-- A row of a displayable frame: like `Row` but with a dynamically
typed `Total_Penjualan` column. -/
structure DynRow where
  tanggal : Option Int
  jumlah : Int
  totalPenjualan : Cell
  kategori : String
  namaItem : String
deriving DecidableEq, Repr

/-- A loaded row viewed as a displayable row (numeric amount). -/
def toDyn (r : Row) : DynRow :=
  ⟨r.tanggal, r.jumlah, Cell.num r.totalPenjualan, r.kategori, r.namaItem⟩

/-- Floor of a rational, used by the rounding of `"{:,.0f}".format`. -/
def ratFloor (q : ℚ) : Int := Int.fdiv q.num (q.den : Int)

/-- Round half to even, Python's float formatting rule for `.0f`. -/
def roundHalfEven (q : ℚ) : Int :=
  let f := ratFloor q
  let frac : ℚ := q - (f : ℚ)
  if frac < 1/2 then f
  else if (1/2 : ℚ) < frac then f + 1
  else if f % 2 = 0 then f else f + 1

/-- Insert a comma after every three characters of a reversed digit
list — the thousands grouping of `"{:,.0f}"`. -/
def groupThree : List Char → List Char
  | a :: b :: c :: d :: rest => a :: b :: c :: ',' :: groupThree (d :: rest)
  | l => l

/-- `"{:,.0f}".format(q)`: round to an integer, render its digits with
thousands separators, prefix the sign. -/
def formatThousands (q : ℚ) : String :=
  let n := roundHalfEven q
  let digits := Nat.toDigits 10 n.natAbs
  let grouped := (groupThree digits.reverse).reverse
  (if n < 0 then "-" else "") ++ String.mk grouped

/-- The column `.map("{:,.0f}".format)` applied to one cell. -/
def formatCell : Cell → Cell
  | .num q => .txt (formatThousands q)
  | .txt s => .txt s

/-- One display row: the amount column replaced by its formatted text. -/
def formatRow (r : DynRow) : DynRow :=
  { r with totalPenjualan := formatCell r.totalPenjualan }

/-- Whether a cell holds text. -/
def isTxt : Cell → Bool
  | .txt _ => true
  | .num _ => false

/-- Whether a cell holds a number. -/
def isNum : Cell → Bool
  | .num _ => true
  | .txt _ => false

/-- `display_df = filtered.copy()` then
`display_df["Total_Penjualan"] = display_df["Total_Penjualan"].map(...)`:
on a heap of frames (index = frame identity), allocate a fresh copy of
the frame at `i`, then overwrite the copy's amount column in place.
Returns the new heap and the copy's index. -/
def displayStep (heap : List (List DynRow)) (i : Nat) :
    List (List DynRow) × Nat :=
  let copy := heap.getD i []
  let heap1 := heap ++ [copy]
  let j := heap.length
  (heap1.set j (copy.map formatRow), j)

lemma isTxt_formatCell (c : Cell) : isTxt (formatCell c) = true := by
  cases c <;> rfl

/-- C10: the display-formatting step operates on a fresh copy — every
frame that existed before (the base table and the filtered table) is
unchanged, hence still numeric where it was numeric; the fresh frame is
the old frame with its amount column replaced by formatted strings. -/
theorem c10_display_copy (heap : List (List DynRow)) (i : Nat) :
    (∀ k, k < heap.length → (displayStep heap i).1.getD k [] = heap.getD k [])
    ∧ (∀ k, k < heap.length →
        (∀ r ∈ heap.getD k [], isNum r.totalPenjualan = true) →
        ∀ r ∈ (displayStep heap i).1.getD k [], isNum r.totalPenjualan = true)
    ∧ (displayStep heap i).2 = heap.length
    ∧ (displayStep heap i).1.getD (displayStep heap i).2 []
        = (heap.getD i []).map formatRow
    ∧ ∀ r ∈ (displayStep heap i).1.getD (displayStep heap i).2 [],
        isTxt r.totalPenjualan = true := by
  have hunch : ∀ k, k < heap.length →
      (displayStep heap i).1.getD k [] = heap.getD k [] := by
    intro k hk
    show ((heap ++ [heap.getD i []]).set heap.length
      ((heap.getD i []).map formatRow)).getD k [] = _
    rw [List.getD_eq_getElem?_getD, List.getElem?_set_ne (Nat.ne_of_gt hk),
      List.getElem?_append]
    rw [if_pos hk, ← List.getD_eq_getElem?_getD]
  have hfresh : (displayStep heap i).1.getD (displayStep heap i).2 []
      = (heap.getD i []).map formatRow := by
    show ((heap ++ [heap.getD i []]).set heap.length
      ((heap.getD i []).map formatRow)).getD heap.length [] = _
    rw [List.getD_eq_getElem?_getD, List.getElem?_set_self
      (by rw [List.length_append, List.length_singleton]; omega)]
    rfl
  refine ⟨hunch, ?_, rfl, hfresh, ?_⟩
  · intro k hk hnum r hr
    rw [hunch k hk] at hr
    exact hnum r hr
  · intro r hr
    rw [hfresh] at hr
    obtain ⟨a, _, rfl⟩ := List.mem_map.mp hr
    exact isTxt_formatCell a.totalPenjualan
